import Mathlib

set_option maxRecDepth 8000
set_option maxHeartbeats 1000000

/-!
Shallow embedding of the EPDTools image pipeline: palette-constrained error
diffusion (models/Dithering.py), bitplane extraction and packing
(models/ImgProcesser.py), the chunked checksummed serial transfer
(models/serial.py), and the call the main pipeline (main.py) makes into the
plane encoder.  Machine integers are modelled as Nat, Python floats as exact
rationals, and Python exceptions as Except values.

The rational arithmetic of the embedding is spelled with explicit
numerator/denominator formulas (`qAdd`, `qMul`, ...) because the library's
field operations on `ℚ` are irreducible and would block evaluation on
concrete inputs; the lemmas `qAdd_eq`, `qMul_eq`, ... identify each of them
with the corresponding field operation, and all theorems are stated and
proved through that identification.
-/

deriving instance DecidableEq for Except

namespace EPD

/-- Negation of a rational, by explicit numerator. -/
def qNeg (a : ℚ) : ℚ := Rat.divInt (-a.num) a.den

/-- Addition of rationals, by explicit cross-multiplication. -/
def qAdd (a b : ℚ) : ℚ :=
  Rat.divInt (a.num * (b.den : ℤ) + b.num * (a.den : ℤ)) ((a.den : ℤ) * (b.den : ℤ))

/-- Subtraction of rationals. -/
def qSub (a b : ℚ) : ℚ := qAdd a (qNeg b)

/-- Multiplication of rationals. -/
def qMul (a b : ℚ) : ℚ := Rat.divInt (a.num * b.num) ((a.den : ℤ) * (b.den : ℤ))

/-- Inverse of a rational. -/
def qInv (b : ℚ) : ℚ := Rat.divInt (b.den : ℤ) b.num

/-- Division of rationals. -/
def qDiv (a b : ℚ) : ℚ := qMul a (qInv b)

/-- A pixel color in OpenCV BGR channel order, one value (0-255) per channel,
mirroring the `(b, g, r)` tuples of `Dithering.palettes`. -/
structure Color where
  b : ℕ
  g : ℕ
  r : ℕ
deriving DecidableEq

/-- White, `(255, 255, 255)` in BGR. -/
def white : Color := ⟨255, 255, 255⟩

/-- Black, `(0, 0, 0)` in BGR. -/
def black : Color := ⟨0, 0, 0⟩

/-- Red, `(0, 0, 255)` in BGR (blue 0, green 0, red 255). -/
def red : Color := ⟨0, 0, 255⟩

/-- The white/black palette `Dithering.palettes['bw']`. -/
def bwPalette : List Color := [white, black]

/-- The white/red palette `Dithering.palettes['rw']`. -/
def rwPalette : List Color := [white, red]

/-- The white/black/red palette `Dithering.palettes['rbw']`. -/
def rbwPalette : List Color := [white, black, red]

/-- The luminance expression `0.299 * c[2] + 0.587 * c[1] + 0.114 * c[0]`
evaluated exactly over the rationals; `c[2]` is the red channel, `c[1]` the
green one and `c[0]` the blue one of a BGR tuple.  This is also the formula
the specification states for a palette entry's luminance. -/
def lumExact (c : Color) : ℚ :=
  qAdd (qMul (Rat.divInt 299 1000) c.r)
    (qAdd (qMul (Rat.divInt 587 1000) c.g) (qMul (Rat.divInt 114 1000) c.b))

/-- Python's `int()` on an exact rational: truncation toward zero. -/
def pyInt (q : ℚ) : ℤ := Int.tdiv q.num q.den

/-- One entry of
`gray_palette = [int(0.299 * c[2] + 0.587 * c[1] + 0.114 * c[0]) for c in palette]`
in `Dithering._floyd_steinberg`: the luminance truncated by Python `int()`. -/
def lumInt (c : Color) : ℤ := pyInt (lumExact c)

/-- The whole `gray_palette` list, computed once from the palette. -/
def grayPalette (pal : List Color) : List ℤ := pal.map lumInt

/-- Index of the first minimum of a list of rationals, `np.argmin`'s
first-occurrence convention; 0 on the empty list. -/
def argminList : List ℚ → ℕ
  | [] => 0
  | [_] => 0
  | d :: e :: rest =>
      let j := argminList (e :: rest)
      if d ≤ (e :: rest).getD j 0 then 0 else j + 1

/-- The absolute difference `np.abs` compares: distance from a truncated
palette luminance to the working value `v`. -/
def lumDist (g : ℤ) (v : ℚ) : ℚ := |qSub (g : ℚ) v|

/-- `np.argmin(np.abs(gray_palette - old_pixel))`: index of the palette entry
whose truncated luminance is nearest to the working value `v`, first index
winning ties. -/
def nearestIdx (gp : List ℤ) (v : ℚ) : ℕ :=
  argminList (gp.map (fun g => lumDist g v))

/-- Point update of an error buffer: add `d` at integer coordinates `(i, j)`
(x first), leaving every other point unchanged. -/
def addAt (f : ℤ → ℤ → ℚ) (i j : ℤ) (d : ℚ) : ℤ → ℤ → ℚ :=
  fun a b => if a = i ∧ b = j then qAdd (f a b) d else f a b

/-- The error-diffusion step of `Dithering._floyd_steinberg` at pixel
`(x, y)` with quantization error `e`: the four guarded `img[...] += ...`
writes, in source order. -/
def diffuse (w h : ℕ) (x y : ℕ) (e : ℚ) (f : ℤ → ℤ → ℚ) : ℤ → ℤ → ℚ :=
  let f1 := if x + 1 < w then addAt f ((x : ℤ) + 1) (y : ℤ) (qDiv (qMul e 7) 16) else f
  if y + 1 < h then
    let f2 := addAt f1 (x : ℤ) ((y : ℤ) + 1) (qDiv (qMul e 5) 16)
    let f3 :=
      if 1 ≤ x then addAt f2 ((x : ℤ) - 1) ((y : ℤ) + 1) (qDiv (qMul e 3) 16) else f2
    if x + 1 < w then addAt f3 ((x : ℤ) + 1) ((y : ℤ) + 1) (qDiv (qMul e 1) 16) else f3
  else f1

/-- State of one `_floyd_steinberg` run: the float working copy `img` of the
input (the error buffer) and the BGR `output` array. -/
structure FSState where
  buf : ℤ → ℤ → ℚ
  out : ℕ → ℕ → Color

/-- The body of the double loop of `_floyd_steinberg` for one pixel `(x, y)`:
read the error-adjusted value, pick the nearest palette entry, emit its
color, and diffuse the quantization error. -/
def fsProcessPixel (pal : List Color) (gp : List ℤ) (w h : ℕ)
    (st : FSState) (p : ℕ × ℕ) : FSState :=
  let x := p.1
  let y := p.2
  let old := st.buf x y
  let idx := nearestIdx gp old
  let c := pal.getD idx ⟨0, 0, 0⟩
  let err := qSub old ((gp.getD idx 0 : ℤ) : ℚ)
  { buf := diffuse w h x y err st.buf,
    out := fun a b => if a = x ∧ b = y then c else st.out a b }

/-- Row-major traversal order of `for y in range(height): for x in range(width)`,
as the list of `(x, y)` pairs. -/
def pixelSeq (w h : ℕ) : List (ℕ × ℕ) :=
  (List.range h).flatMap (fun y => (List.range w).map (fun x => (x, y)))

/-- Width of a row-major grid, `shape[1]`. -/
def gridWidth (img : List (List α)) : ℕ := (img.headD []).length

/-- The float working copy `img = image.copy().astype(np.float32)`, as a
total function on integer coordinates (x first); 0 outside the grid. -/
def initBuf (img : List (List ℕ)) : ℤ → ℤ → ℚ :=
  fun a b =>
    if 0 ≤ a ∧ 0 ≤ b then ((img.getD b.toNat []).getD a.toNat 0 : ℚ) else 0

/-- A whole `_floyd_steinberg` run over a grayscale image: fold the per-pixel
body over the row-major pixel sequence, starting from the source luminances
and an all-zero (black) output array, with `gray_palette` computed once. -/
def fsRun (pal : List Color) (img : List (List ℕ)) : FSState :=
  (pixelSeq (gridWidth img) img.length).foldl
    (fsProcessPixel pal (grayPalette pal) (gridWidth img) img.length)
    ⟨initBuf img, fun _ _ => ⟨0, 0, 0⟩⟩

/-- `Dithering._floyd_steinberg image palette`, returning the output pixel at
`(x, y)` (x first). -/
def floydSteinberg (pal : List Color) (img : List (List ℕ)) : ℕ → ℕ → Color :=
  (fsRun pal img).out

/-- Materialize a pixel function into a row-major grid of the given size. -/
def toGrid (w h : ℕ) (f : ℕ → ℕ → Color) : List (List Color) :=
  (List.range h).map (fun y => (List.range w).map (fun x => f x y))

/-- `i` is the index the claim describes: an in-range palette index whose
distance to `v` is minimal, and strictly smaller than every earlier entry's
distance (lowest index wins ties). -/
def IsNearest (gp : List ℤ) (v : ℚ) (i : ℕ) : Prop :=
  i < gp.length ∧
  (∀ j, j < gp.length → lumDist (gp.getD i 0) v ≤ lumDist (gp.getD j 0) v) ∧
  (∀ j, j < i → lumDist (gp.getD i 0) v < lumDist (gp.getD j 0) v)

instance isNearestDecidable (gp : List ℤ) (v : ℚ) (i : ℕ) :
    Decidable (IsNearest gp v i) := by
  unfold IsNearest
  infer_instance

/-! ### Plane encoder: `ImgProcesser.modulate_brw` and `ImgProcesser._pack_bits` -/

/-- Value of a grid at row `y`, column `x`, with a default outside. -/
def pixelAt (img : List (List α)) (d : α) (y x : ℕ) : α := (img.getD y []).getD x d

/-- One byte of `ImgProcesser._pack_bits` for column `x` and row group
starting at row `y`: `byte |= 1 << (7 - i)` whenever the pixel 8 rows down
from `y` exists and equals 255. -/
def packByte (img : List (List ℕ)) (x y : ℕ) : ℕ :=
  (List.range 8).foldl
    (fun byte i =>
      if y + i < img.length ∧ pixelAt img 0 (y + i) x = 255 then
        byte ||| (1 <<< (7 - i))
      else byte)
    0

/-- `ImgProcesser._pack_bits`: for each column `x`, one byte per row group of
8 rows starting at rows 0, 8, 16, ...; `(height + 7) / 8` groups, matching
`range(0, height, 8)`. -/
def packBits (img : List (List ℕ)) : List ℕ :=
  (List.range (gridWidth img)).flatMap fun x =>
    (List.range ((img.length + 7) / 8)).map fun g => packByte img x (8 * g)

/-- `cv2.rotate(img, cv2.ROTATE_90_CLOCKWISE)`: destination pixel `(i, j)` is
source pixel `(h - 1 - j, i)`; a `h × w` grid becomes `w × h`. -/
def rotate90cw (img : List (List Color)) : List (List Color) :=
  (List.range (gridWidth img)).map fun i =>
    (List.range img.length).map fun j => pixelAt img black (img.length - 1 - j) i

/-- Orientation normalization of `modulate_brw`: rotate when `width < height`. -/
def rotateStage (img : List (List Color)) : List (List Color) :=
  if gridWidth img < img.length then rotate90cw img else img

/-- The aspect-ratio crop of `modulate_brw` (source lines 22-35).  Both
`target_ratio` and `current_ratio` are computed from the image itself as
`w / h`, exactly as the source does.  Callers reach this stage only with
`h ≠ 0` (the ratio computation raises on a zero height before this point). -/
def cropStage (img : List (List Color)) : List (List Color) :=
  let h := img.length
  let w := gridWidth img
  let targetRatio : ℚ := qDiv (w : ℚ) (h : ℚ)
  let currentRatio : ℚ := qDiv (gridWidth img : ℚ) (img.length : ℚ)
  if |qSub currentRatio targetRatio| > Rat.divInt 1 100 then
    if currentRatio > targetRatio then
      let newW := (pyInt (qMul (h : ℚ) targetRatio)).toNat
      let x := (w - newW) / 2
      img.map fun row => (row.drop x).take newW
    else
      let newH := (pyInt (qDiv (w : ℚ) targetRatio)).toNat
      let y := (h - newH) / 2
      (img.drop y).take newH
  else img

/-- Byte-alignment padding of `modulate_brw`: if the height is not a multiple
of 8, append `8 - height % 8` rows of black at the bottom
(`cv2.copyMakeBorder(..., value=(0,0,0))`). -/
def padStage (img : List (List Color)) : List (List Color) :=
  if img.length % 8 ≠ 0 then
    img ++ List.replicate (8 - img.length % 8) (List.replicate (gridWidth img) black)
  else img

/-- `cv2.inRange(img, white, white)` at one pixel: 255 on exact equality with
white, else 0. -/
def whiteMaskVal (c : Color) : ℕ := if c = white then 255 else 0

/-- `cv2.inRange(img, black, black)` at one pixel. -/
def blackMaskVal (c : Color) : ℕ := if c = black then 255 else 0

/-- `cv2.inRange(img, red, red)` at one pixel (BGR `(0, 0, 255)`). -/
def redMaskVal (c : Color) : ℕ := if c = red then 255 else 0

/-- The primary ("bw") binary value of one pixel: `bw_bin = white_mask`. -/
def bwBinVal (c : Color) : ℕ := whiteMaskVal c

/-- The secondary ("rw") binary value of one pixel:
`rw_bin = cv2.bitwise_not(cv2.bitwise_or(white_mask, red_mask))`, with
`bitwise_not v = 255 - v` on uint8. -/
def rwBinVal (c : Color) : ℕ := 255 - (whiteMaskVal c ||| redMaskVal c)

/-- Apply a per-pixel binary extraction to a whole color grid. -/
def toBin (f : Color → ℕ) (img : List (List Color)) : List (List ℕ) :=
  img.map (List.map f)

/-- The geometry normalization of `modulate_brw` (rotate, crop, pad), with
the `ZeroDivisionError` Python raises at `target_ratio = w / h` when the
height after rotation is 0 made explicit. -/
def normalizeImg (img : List (List Color)) : Except String (List (List Color)) :=
  let img1 := rotateStage img
  if img1.length = 0 then Except.error "ZeroDivisionError: division by zero"
  else Except.ok (padStage (cropStage img1))

/-- `ImgProcesser.modulate_brw`: normalize geometry, extract the two binary
planes, pack them, and return `(bw_data, rw_data, width, height)`. -/
def modulateBrw (img : List (List Color)) :
    Except String (List ℕ × List ℕ × ℕ × ℕ) :=
  match normalizeImg img with
  | Except.error e => Except.error e
  | Except.ok img3 =>
      Except.ok (packBits (toBin bwBinVal img3), packBits (toBin rwBinVal img3),
        gridWidth img3, img3.length)

/-! ### Transfer session: `SerialPort` (models/serial.py) -/

/-- Environment a transfer session runs against: whether the handshake poll
sees `"OK"` in time, how many bytes the `n`-th chunk write reports, and
whether the `n`-th chunk's checksum string is seen in time.  Chunk events
are numbered in the order the session performs them. -/
structure SerialEnv where
  handshakeAck : Bool
  writeRes : ℕ → ℕ
  chunkAck : ℕ → Bool

/-- The 5-byte handshake marker `b"Beg\n\r"`. -/
def begMarker : List ℕ := [66, 101, 103, 10, 13]

/-- `checksum = sum(chunk) & 0xFFFF`. -/
def chunkChecksum (chunk : List ℕ) : ℕ := chunk.sum &&& 0xFFFF

/-- The consecutive 16-byte chunks `data[sent:sent+16]` of a plane whose
length is a multiple of 16. -/
def chunks16 (data : List ℕ) : List (List ℕ) :=
  (List.range (data.length / 16)).map fun i => (data.drop (16 * i)).take 16

/-- The chunk loop of `SerialPort._send_data_with_checksum`, starting at
chunk event number `c`: write a chunk (aborting on a short write), wait for
its checksum acknowledgment (aborting on timeout), recurse.  Returns the
success flag, the list of chunk writes put on the wire, and the next event
number. -/
def sendChunksGo (env : SerialEnv) : List (List ℕ) → ℕ → Bool × List (List ℕ) × ℕ
  | [], c => (true, [], c)
  | chunk :: rest, c =>
      if env.writeRes c ≠ 16 then (false, [chunk], c + 1)
      else if env.chunkAck c = false then (false, [chunk], c + 1)
      else
        let r := sendChunksGo env rest (c + 1)
        (r.1, chunk :: r.2.1, r.2.2)

/-- `SerialPort._send_data_with_checksum`: reject a plane whose length is not
a multiple of 16 before writing anything, else send its 16-byte chunks in
order. -/
def sendDataWithChecksum (env : SerialEnv) (c : ℕ) (data : List ℕ) :
    Bool × List (List ℕ) × ℕ :=
  if data.length % 16 ≠ 0 then (false, [], c)
  else sendChunksGo env (chunks16 data) c

/-- `SerialPort.send_img_data`: refuse a closed port, perform the handshake
(`b"Beg\n\r"` then wait for `"OK"`), then send the primary plane and, only
if it succeeded, the secondary plane.  Returns the success flag and every
write put on the wire, in order. -/
def sendImgData (env : SerialEnv) (isOpen : Bool) (bw rw : List ℕ) :
    Bool × List (List ℕ) :=
  if isOpen = false then (false, [])
  else if env.handshakeAck = false then (false, [begMarker])
  else
    let r1 := sendDataWithChecksum env 0 bw
    if r1.1 = false then (false, begMarker :: r1.2.1)
    else
      let r2 := sendDataWithChecksum env r1.2.2 rw
      (r2.1, begMarker :: (r1.2.1 ++ r2.2.1))

/-- Observable events of one whole transfer session as `main` drives it. -/
inductive SessionEvent where
  | opened : SessionEvent
  | wrote : List ℕ → SessionEvent
  | closed : SessionEvent
deriving DecidableEq

/-- The session-driving block of `main` (main.py lines 207-215):
`if ser.open(): try: ser.send_img_data(...) finally: ser.close()`.  The
`finally` closes the link on every exit path of the send; when the open
fails, no link was acquired.  Returns the send result and the event trace. -/
def runSession (env : SerialEnv) (openOk : Bool) (bw rw : List ℕ) :
    Bool × List SessionEvent :=
  if openOk then
    let r := sendImgData env true bw rw
    (r.1, SessionEvent.opened :: (r.2.map SessionEvent.wrote ++ [SessionEvent.closed]))
  else (false, [])

/-! ### The call `main` makes into the plane encoder (main.py lines 194-198) -/

/-- CPython keyword binding for a call to a function without a `**kwargs`
parameter: every keyword argument name must be a declared parameter name,
otherwise the call raises `TypeError` naming the first unexpected keyword. -/
def pyBindKwargs (params : List String) (kwargs : List String) : Except String Unit :=
  match kwargs.filter (fun k => !(params.contains k)) with
  | [] => Except.ok ()
  | k :: _ =>
      Except.error ("TypeError: modulate_brw() got an unexpected keyword argument " ++ k)

/-- The keyword-accepting parameters of `ImgProcesser.modulate_brw(self, img,
need_preview=False)`, `self` excluded. -/
def modulateBrwParams : List String := ["img", "need_preview"]

/-- The keyword arguments `main` passes at main.py lines 194-198:
`need_preview=True, dither_mode=...`. -/
def mainCallKwargs : List String := ["need_preview", "dither_mode"]

/-- The color-separation step of `main`: bind the arguments of the
`processor.modulate_brw(...)` call, then (only if binding succeeded) run the
encoder on the dithered image. -/
def mainColorSeparation (img : List (List Color)) :
    Except String (List ℕ × List ℕ × ℕ × ℕ) :=
  match pyBindKwargs modulateBrwParams mainCallKwargs with
  | Except.error e => Except.error e
  | Except.ok _ => modulateBrw img

/-- Whether a run of `main` reaches the serial-transmission stage: the
color-separation `try` block swallows the error and returns from `main`
before stage 3 when the call fails. -/
def mainReachesSerial (img : List (List Color)) : Bool :=
  match mainColorSeparation img with
  | Except.ok _ => true
  | Except.error _ => false

/-! ## Bridge lemmas for the executable rational arithmetic -/

theorem qNeg_eq (a : ℚ) : qNeg a = -a := (Rat.neg_def a).symm

theorem qAdd_eq (a b : ℚ) : qAdd a b = a + b := by
  have ha : ((a.den : ℤ)) ≠ 0 := by exact_mod_cast a.den_ne_zero
  have hb : ((b.den : ℤ)) ≠ 0 := by exact_mod_cast b.den_ne_zero
  rw [qAdd, ← Rat.divInt_add_divInt _ _ ha hb, Rat.num_divInt_den, Rat.num_divInt_den]

theorem qSub_eq (a b : ℚ) : qSub a b = a - b := by
  rw [qSub, qAdd_eq, qNeg_eq, sub_eq_add_neg]

theorem qMul_eq (a b : ℚ) : qMul a b = a * b := by
  rw [qMul, ← Rat.divInt_mul_divInt', Rat.num_divInt_den, Rat.num_divInt_den]

theorem qInv_eq (b : ℚ) : qInv b = b⁻¹ := (Rat.inv_def' b).symm

theorem qDiv_eq (a b : ℚ) : qDiv a b = a / b := by
  rw [qDiv, qMul_eq, qInv_eq, div_eq_mul_inv]

theorem lumExact_eq (c : Color) :
    lumExact c = (299 / 1000) * c.r + (587 / 1000) * c.g + (114 / 1000) * c.b := by
  rw [lumExact, qAdd_eq, qAdd_eq, qMul_eq, qMul_eq, qMul_eq,
    Rat.divInt_eq_div, Rat.divInt_eq_div, Rat.divInt_eq_div]
  push_cast
  ring

theorem lumDist_eq (g : ℤ) (v : ℚ) : lumDist g v = |(g : ℚ) - v| := by
  rw [lumDist, qSub_eq]

/-! ## The crop stage never fires -/

/-- Because `target_ratio` and `current_ratio` are the same expression
`w / h` over the same image, the crop condition of `modulate_brw` is always
false and the crop stage is the identity. -/
theorem cropStage_id (img : List (List Color)) : cropStage img = img := by
  simp only [cropStage, qSub_eq, sub_self, abs_zero, gt_iff_lt]
  rw [if_neg]
  rw [Rat.divInt_eq_div]
  norm_num

/-! ## Claim C5 -/

/-- C5.  The spec's aspect-preserving center crop never happens: the code of
`modulate_brw` computes `target_ratio` from the image itself (`w / h` over
the same `h, w = img.shape[:2]` as `current_ratio`), so the 1%-deviation
condition is false for every image and the crop stage returns its input
unchanged — the image is never cropped to the device's target ratio. -/
theorem crop_to_device_ratio_never_happens (img : List (List Color)) :
    cropStage img = img ∧
      ¬ |qSub (qDiv (gridWidth img : ℚ) (img.length : ℚ))
            (qDiv (gridWidth img : ℚ) (img.length : ℚ))| > Rat.divInt 1 100 := by
  refine ⟨cropStage_id img, ?_⟩
  rw [qSub_eq, sub_self, abs_zero, Rat.divInt_eq_div, gt_iff_lt]
  norm_num

/-! ## Claim C7 -/

/-- C7.  For every byte sequence whose length is not a multiple of 16,
`_send_data_with_checksum` reports failure before writing anything: the
result is `False`, the write trace is empty (so nothing is padded and no
bytes reach the link), and the chunk-event counter is untouched. -/
theorem sendData_rejects_non_multiple_of_16 (env : SerialEnv) (c : ℕ)
    (data : List ℕ) (hlen : data.length % 16 ≠ 0) :
    sendDataWithChecksum env c data = (false, [], c) := by
  rw [sendDataWithChecksum, if_pos hlen]

/-- Witness for C7 at a concrete 3-byte plane. -/
theorem sendData_rejects_non_multiple_of_16_witness :
    sendDataWithChecksum ⟨true, fun _ => 16, fun _ => true⟩ 0 [1, 2, 3] =
      (false, [], 0) :=
  sendData_rejects_non_multiple_of_16 ⟨true, fun _ => 16, fun _ => true⟩ 0 [1, 2, 3]
    (by decide)

/-! ## Claim C9 -/

/-- C9.  The session-driving block of `main` closes the serial link on every
exit path: whatever the environment does (handshake failure, chunk-length
failure, short write, checksum timeout, or success), the last event of an
opened session's trace is `closed`; and when the open itself fails no link
is ever acquired. -/
theorem session_always_closes_link (env : SerialEnv) (bw rw : List ℕ) :
    (runSession env true bw rw).2.getLast? = some SessionEvent.closed ∧
      (runSession env false bw rw).2 = [] := by
  constructor
  · show (SessionEvent.opened ::
        ((sendImgData env true bw rw).2.map SessionEvent.wrote ++
          [SessionEvent.closed])).getLast? = some SessionEvent.closed
    rw [← List.cons_append]
    exact List.getLast?_concat _
  · rfl

/-! ## Claim C10 -/

/-- C10.  Every run of `main` that reaches the color-separation step fails
there: the `modulate_brw` call passes the keyword `dither_mode`, which the
signature `modulate_brw(self, img, need_preview=False)` does not accept, so
for every dithered image the call raises `TypeError` and the
serial-transmission stage is never reached through `main`. -/
theorem main_color_separation_raises (img : List (List Color)) :
    mainColorSeparation img =
        Except.error
          "TypeError: modulate_brw() got an unexpected keyword argument dither_mode" ∧
      mainReachesSerial img = false := by
  exact ⟨rfl, rfl⟩

/-! ## Claim C4 -/

theorem addAt_apply (f : ℤ → ℤ → ℚ) (i j : ℤ) (d : ℚ) (a b : ℤ) :
    addAt f i j d a b = if a = i ∧ b = j then qAdd (f a b) d else f a b := rfl

/-- C4.  At every pixel `(x, y)` of the image, the error-diffusion step of
`_floyd_steinberg` adds exactly `e * 7/16` at `(x+1, y)`, `e * 5/16` at
`(x, y+1)`, `e * 3/16` at `(x-1, y+1)` and `e * 1/16` at `(x+1, y+1)`
whenever those neighbors are inside the image; it changes no point outside
the image's coordinate bounds (first conjunct: boundary clipping, no
wraparound) and no point other than those four neighbors (last conjunct: in
particular no renormalization anywhere else). -/
theorem diffusion_weights_and_bounds (w h x y : ℕ) (e : ℚ) (f : ℤ → ℤ → ℚ)
    (hx : x < w) (hy : y < h) :
    (∀ a b : ℤ, (a < 0 ∨ (w : ℤ) ≤ a ∨ b < 0 ∨ (h : ℤ) ≤ b) →
        diffuse w h x y e f a b = f a b) ∧
      (x + 1 < w →
        diffuse w h x y e f ((x : ℤ) + 1) (y : ℤ) =
          f ((x : ℤ) + 1) (y : ℤ) + e * 7 / 16) ∧
      (y + 1 < h →
        diffuse w h x y e f (x : ℤ) ((y : ℤ) + 1) =
          f (x : ℤ) ((y : ℤ) + 1) + e * 5 / 16) ∧
      (y + 1 < h → 1 ≤ x →
        diffuse w h x y e f ((x : ℤ) - 1) ((y : ℤ) + 1) =
          f ((x : ℤ) - 1) ((y : ℤ) + 1) + e * 3 / 16) ∧
      (y + 1 < h → x + 1 < w →
        diffuse w h x y e f ((x : ℤ) + 1) ((y : ℤ) + 1) =
          f ((x : ℤ) + 1) ((y : ℤ) + 1) + e * 1 / 16) ∧
      (∀ a b : ℤ, ¬(a = (x : ℤ) + 1 ∧ b = (y : ℤ)) →
        ¬(a = (x : ℤ) ∧ b = (y : ℤ) + 1) →
        ¬(a = (x : ℤ) - 1 ∧ b = (y : ℤ) + 1) →
        ¬(a = (x : ℤ) + 1 ∧ b = (y : ℤ) + 1) →
        diffuse w h x y e f a b = f a b) := by
  refine ⟨?_, ?_, ?_, ?_, ?_, ?_⟩
  · intro a b hout
    by_cases h1 : x + 1 < w <;> by_cases h2 : y + 1 < h <;> by_cases h3 : 1 ≤ x <;>
      simp only [diffuse, addAt_apply, h1, h2, h3, if_true, if_false] <;>
      split_ifs <;> first | rfl | omega
  · intro h1
    have c2 : ¬((x : ℤ) + 1 = (x : ℤ) ∧ (y : ℤ) = (y : ℤ) + 1) := by omega
    have c3 : ¬((x : ℤ) + 1 = (x : ℤ) - 1 ∧ (y : ℤ) = (y : ℤ) + 1) := by omega
    have c4 : ¬((x : ℤ) + 1 = (x : ℤ) + 1 ∧ (y : ℤ) = (y : ℤ) + 1) := by omega
    by_cases h2 : y + 1 < h <;> by_cases h3 : 1 ≤ x <;>
      simp [diffuse, addAt_apply, h1, h2, h3, c2, c3, c4, qAdd_eq, qDiv_eq, qMul_eq]
  · intro h2
    have c1 : ¬((x : ℤ) = (x : ℤ) + 1 ∧ (y : ℤ) + 1 = (y : ℤ)) := by omega
    have c3 : ¬((x : ℤ) = (x : ℤ) - 1 ∧ (y : ℤ) + 1 = (y : ℤ) + 1) := by omega
    have c4 : ¬((x : ℤ) = (x : ℤ) + 1 ∧ (y : ℤ) + 1 = (y : ℤ) + 1) := by omega
    have d1 : ¬((x : ℤ) = (x : ℤ) + 1) := by omega
    have d3 : ¬((x : ℤ) = (x : ℤ) - 1) := by omega
    by_cases h1 : x + 1 < w <;> by_cases h3 : 1 ≤ x <;>
      simp [diffuse, addAt_apply, h1, h2, h3, c1, c3, c4, d1, d3,
        qAdd_eq, qDiv_eq, qMul_eq]
  · intro h2 h3
    have c1 : ¬((x : ℤ) - 1 = (x : ℤ) + 1 ∧ (y : ℤ) + 1 = (y : ℤ)) := by omega
    have c2 : ¬((x : ℤ) - 1 = (x : ℤ) ∧ (y : ℤ) + 1 = (y : ℤ) + 1) := by omega
    have c4 : ¬((x : ℤ) - 1 = (x : ℤ) + 1 ∧ (y : ℤ) + 1 = (y : ℤ) + 1) := by omega
    have d2 : ¬((x : ℤ) - 1 = (x : ℤ)) := by omega
    have d4 : ¬((x : ℤ) - 1 = (x : ℤ) + 1) := by omega
    by_cases h1 : x + 1 < w <;>
      simp [diffuse, addAt_apply, h1, h2, h3, c1, c2, c4, d2, d4,
        qAdd_eq, qDiv_eq, qMul_eq]
  · intro h2 h1
    have c1 : ¬((x : ℤ) + 1 = (x : ℤ) + 1 ∧ (y : ℤ) + 1 = (y : ℤ)) := by omega
    have c2 : ¬((x : ℤ) + 1 = (x : ℤ) ∧ (y : ℤ) + 1 = (y : ℤ) + 1) := by omega
    have c3 : ¬((x : ℤ) + 1 = (x : ℤ) - 1 ∧ (y : ℤ) + 1 = (y : ℤ) + 1) := by omega
    have d1 : ¬((y : ℤ) + 1 = (y : ℤ)) := by omega
    have d2 : ¬((x : ℤ) + 1 = (x : ℤ)) := by omega
    have d3 : ¬((x : ℤ) + 1 = (x : ℤ) - 1) := by omega
    by_cases h3 : 1 ≤ x <;>
      simp [diffuse, addAt_apply, h1, h2, h3, c1, c2, c3, d1, d2, d3,
        qAdd_eq, qDiv_eq, qMul_eq]
  · intro a b hn1 hn2 hn3 hn4
    by_cases h1 : x + 1 < w <;> by_cases h2 : y + 1 < h <;> by_cases h3 : 1 ≤ x <;>
      simp only [diffuse, addAt_apply, h1, h2, h3, if_true, if_false] <;>
      split_ifs <;> first | rfl | omega

/-- Witness for C4: at the top-left pixel of a 2×2 image with error 16, the
right neighbor receives `16 * 7/16` and the out-of-bounds point `(-1, 1)`
(the clipped below-left neighbor) is untouched. -/
theorem diffusion_weights_and_bounds_witness :
    diffuse 2 2 0 0 16 (fun _ _ => 0) 1 0 = (fun _ _ => (0 : ℚ)) 1 0 + 16 * 7 / 16 ∧
      diffuse 2 2 0 0 16 (fun _ _ => 0) (-1) 1 = (fun _ _ => (0 : ℚ)) (-1) 1 :=
  ⟨(diffusion_weights_and_bounds 2 2 0 0 16 (fun _ _ => 0) (by decide) (by decide)).2.1
      (by decide),
    (diffusion_weights_and_bounds 2 2 0 0 16 (fun _ _ => 0) (by decide) (by decide)).1
      (-1) 1 (by decide)⟩

/-! ## Structural lemmas about the plane encoder -/

theorem flatMapRange_length (f : ℕ → List ℕ) (G : ℕ) (hf : ∀ x, (f x).length = G) :
    ∀ n, ((List.range n).flatMap f).length = n * G := by
  intro n
  induction n with
  | zero => simp
  | succ m ih =>
      rw [List.range_succ, List.flatMap_append, List.flatMap_singleton,
        List.length_append, ih, hf m]
      ring

theorem flatMapRange_getD (f : ℕ → List ℕ) (G : ℕ) (hf : ∀ x, (f x).length = G) :
    ∀ n x g : ℕ, x < n → g < G →
      ((List.range n).flatMap f).getD (x * G + g) 0 = (f x).getD g 0 := by
  intro n
  induction n with
  | zero => intro x g hx; exact absurd hx (Nat.not_lt_zero x)
  | succ m ih =>
      intro x g hx hg
      rw [List.range_succ, List.flatMap_append, List.flatMap_singleton]
      have hlen : ((List.range m).flatMap f).length = m * G := flatMapRange_length f G hf m
      by_cases hxm : x < m
      · have hidx : x * G + g < m * G := by
          calc x * G + g < x * G + G := by omega
            _ = (x + 1) * G := by ring
            _ ≤ m * G := Nat.mul_le_mul_right G hxm
        rw [List.getD_eq_getElem?_getD, List.getElem?_append_left (by omega),
          ← List.getD_eq_getElem?_getD]
        exact ih x g hxm hg
      · have hxe : x = m := by omega
        subst hxe
        rw [List.getD_eq_getElem?_getD, List.getElem?_append_right (by omega),
          hlen, Nat.add_sub_cancel_left, ← List.getD_eq_getElem?_getD]

/-- Length of a packed plane: one byte per column and row group. -/
theorem packBits_length (img : List (List ℕ)) :
    (packBits img).length = gridWidth img * ((img.length + 7) / 8) := by
  have hf : ∀ x, ((List.range ((img.length + 7) / 8)).map
      (fun g => packByte img x (8 * g))).length = (img.length + 7) / 8 := by
    intro x
    rw [List.length_map, List.length_range]
  exact flatMapRange_length _ _ hf _

/-- Byte of a packed plane at column `x`, row group `g`. -/
theorem packBits_getD (img : List (List ℕ)) (x g : ℕ)
    (hx : x < gridWidth img) (hg : g < (img.length + 7) / 8) :
    (packBits img).getD (x * ((img.length + 7) / 8) + g) 0 = packByte img x (8 * g) := by
  have hf : ∀ x, ((List.range ((img.length + 7) / 8)).map
      (fun g => packByte img x (8 * g))).length = (img.length + 7) / 8 := by
    intro x
    rw [List.length_map, List.length_range]
  rw [packBits, flatMapRange_getD _ _ hf _ _ _ hx hg,
    List.getD_eq_getElem?_getD, List.getElem?_map, List.getElem?_range hg]
  rfl

theorem toBin_length (f : Color → ℕ) (img : List (List Color)) :
    (toBin f img).length = img.length := List.length_map _ _

theorem toBin_width (f : Color → ℕ) (img : List (List Color)) :
    gridWidth (toBin f img) = gridWidth img := by
  cases img with
  | nil => rfl
  | cons r t => simp [toBin, gridWidth]

theorem padStage_length_mod (img : List (List Color)) :
    (padStage img).length % 8 = 0 := by
  rw [padStage]
  split_ifs with h
  · rw [List.length_append, List.length_replicate]
    omega
  · omega

theorem padStage_length_pos (img : List (List Color)) (h : 0 < img.length) :
    0 < (padStage img).length := by
  rw [padStage]
  split_ifs with hm
  · rw [List.length_append]
    omega
  · exact h

theorem padStage_width (img : List (List Color)) (h : img ≠ []) :
    gridWidth (padStage img) = gridWidth img := by
  rw [padStage]
  split_ifs with hm
  · cases img with
    | nil => exact absurd rfl h
    | cons r t => rfl
  · rfl

theorem rotate90cw_length (img : List (List Color)) :
    (rotate90cw img).length = gridWidth img := by
  rw [rotate90cw, List.length_map, List.length_range]

theorem rotate90cw_width (img : List (List Color)) (h : 0 < gridWidth img) :
    gridWidth (rotate90cw img) = img.length := by
  obtain ⟨n, hn⟩ : ∃ n, gridWidth img = n + 1 := ⟨gridWidth img - 1, by omega⟩
  rw [rotate90cw, gridWidth, hn, List.range_succ_eq_map, List.map_cons,
    List.headD_cons, List.length_map, List.length_range]

/-! ## Claim C6 -/

/-- The rotate stage produces an empty image exactly when the input has a
zero dimension. -/
theorem rotateStage_length_zero (img : List (List Color)) :
    (rotateStage img).length = 0 ↔ (img.length = 0 ∨ gridWidth img = 0) := by
  rw [rotateStage]
  split_ifs with h
  · rw [rotate90cw_length]
    omega
  · omega

/-- When the rotate stage output is nonempty, both its dimensions are
positive. -/
theorem rotateStage_dims_pos (img : List (List Color))
    (h : (rotateStage img).length ≠ 0) :
    0 < (rotateStage img).length ∧ 0 < gridWidth (rotateStage img) := by
  refine ⟨by omega, ?_⟩
  rw [rotateStage] at h ⊢
  split_ifs at h ⊢ with hr
  · rw [rotate90cw_length] at h
    rw [rotate90cw_width img (by omega)]
    omega
  · omega

/-- A successful `modulate_brw` run in closed form: when the rotated image
is nonempty, the planes are the packed binaries of the padded (never
cropped) image. -/
theorem modulateBrw_ok (img : List (List Color))
    (h0 : (rotateStage img).length ≠ 0) :
    modulateBrw img =
      Except.ok (packBits (toBin bwBinVal (padStage (rotateStage img))),
        packBits (toBin rwBinVal (padStage (rotateStage img))),
        gridWidth (padStage (rotateStage img)),
        (padStage (rotateStage img)).length) := by
  rw [modulateBrw, normalizeImg, if_neg h0, cropStage_id]

/-- C6.  The plane encoder fails (the `ZeroDivisionError` the ratio
computation raises, the spec's `UnsupportedGeometry`) whenever the image has
a zero dimension after orientation normalization — equivalently, whenever
the input height or width is 0 — and a successful run always returns two
packed planes of nonzero length, so the encoder never produces a zero-length
plane. -/
theorem encoder_rejects_zero_geometry :
    (∀ img : List (List Color), img.length = 0 ∨ gridWidth img = 0 →
        modulateBrw img = Except.error "ZeroDivisionError: division by zero") ∧
      (∀ img bw rw w h, modulateBrw img = Except.ok (bw, rw, w, h) →
        0 < bw.length ∧ 0 < rw.length) := by
  constructor
  · intro img hz
    have h0 : (rotateStage img).length = 0 := (rotateStage_length_zero img).mpr hz
    rw [modulateBrw, normalizeImg, if_pos h0]
  · intro img bw rw w h hok
    by_cases h0 : (rotateStage img).length = 0
    · rw [modulateBrw, normalizeImg, if_pos h0] at hok
      exact absurd hok (by simp)
    · have hpos := rotateStage_dims_pos img h0
      rw [modulateBrw_ok img h0] at hok
      injection hok with hok'
      simp only [Prod.mk.injEq] at hok'
      obtain ⟨hbw, hrw, hww, hhh⟩ := hok'
      have hne : rotateStage img ≠ [] := by
        intro hcontra
        exact h0 (by rw [hcontra]; rfl)
      have hw : gridWidth (padStage (rotateStage img)) = gridWidth (rotateStage img) :=
        padStage_width _ hne
      have hl : 0 < (padStage (rotateStage img)).length :=
        padStage_length_pos _ (by omega)
      have hwid := hpos.2
      have hgroup : 0 < ((padStage (rotateStage img)).length + 7) / 8 := by omega
      constructor
      · rw [← hbw, packBits_length, toBin_length, toBin_width, hw]
        exact Nat.mul_pos (by omega) hgroup
      · rw [← hrw, packBits_length, toBin_length, toBin_width, hw]
        exact Nat.mul_pos (by omega) hgroup

/-- Witness for C6: the empty image is rejected, and a 1×1 white image
yields planes of length 1. -/
theorem encoder_rejects_zero_geometry_witness :
    modulateBrw ([] : List (List Color)) =
        Except.error "ZeroDivisionError: division by zero" ∧
      (0 < ([128] : List ℕ).length ∧ 0 < ([127] : List ℕ).length) :=
  ⟨encoder_rejects_zero_geometry.1 [] (Or.inl rfl),
    encoder_rejects_zero_geometry.2 [[white]] [128] [127] 1 8 (by decide)⟩

/-! ## Claim C2 -/

theorem orPull (c : Prop) [Decidable c] (b m : ℕ) :
    (if c then b ||| m else b) = b ||| (if c then m else 0) := by
  split_ifs <;> simp

theorem testBit_ite_shift (c : Prop) [Decidable c] (k m : ℕ) :
    (if c then 1 <<< k else 0).testBit m = (decide c && decide (k = m)) := by
  split_ifs with h <;> simp [h, Nat.shiftLeft_eq, Nat.testBit_two_pow]

/-- Bit `7 - i` of a packed byte is set exactly when row `y + i` of column
`x` exists and holds value 255. -/
theorem packByte_testBit (img : List (List ℕ)) (x y i : ℕ) (hi : i < 8) :
    (packByte img x y).testBit (7 - i) =
      decide (y + i < img.length ∧ pixelAt img 0 (y + i) x = 255) := by
  have hr : List.range 8 = [0, 1, 2, 3, 4, 5, 6, 7] := rfl
  interval_cases i <;>
    simp only [packByte, hr, List.foldl_cons, List.foldl_nil, orPull,
      Nat.testBit_or, testBit_ite_shift, Nat.zero_or, Nat.zero_testBit] <;>
    simp

/-- C2 (amended).  For a binary plane whose height is a multiple of 8, the
packed output has exactly `width * height / 8` bytes; it is column-major
with one byte per row group of 8 rows, bit `7 - i` of the byte for column
`x` and group `g` set exactly when the pixel at row `8 * g + i` of column
`x` is 255 (so bit 7 is the group's topmost row, bit 0 its last row).  A
2×8 all-white image dithered in white/black mode is all white; the encoder
then rotates it to 8×2 and pads it to 8×8 with black, so it packs to a
primary plane of one `0xC0` byte per column (8 columns) and a secondary
plane of one `0x3F` byte per column — not to two `0xFF`/`0x00` bytes. -/
theorem packed_plane_layout (img : List (List ℕ)) (h8 : img.length % 8 = 0) :
    ((packBits img).length = gridWidth img * (img.length / 8)) ∧
      (∀ x g i, x < gridWidth img → g < img.length / 8 → i < 8 →
        ((packBits img).getD (x * (img.length / 8) + g) 0).testBit (7 - i) =
          decide (pixelAt img 0 (8 * g + i) x = 255)) ∧
      (toGrid 2 8 (floydSteinberg bwPalette (List.replicate 8 (List.replicate 2 255))) =
        List.replicate 8 (List.replicate 2 white)) ∧
      modulateBrw (List.replicate 8 (List.replicate 2 white)) =
        Except.ok ([192, 192, 192, 192, 192, 192, 192, 192],
          [63, 63, 63, 63, 63, 63, 63, 63], 8, 8) := by
  have hgdiv : (img.length + 7) / 8 = img.length / 8 := by omega
  refine ⟨?_, ?_, by decide, by decide⟩
  · rw [packBits_length, hgdiv]
  · intro x g i hx hg hi
    have h1 : (packBits img).getD (x * (img.length / 8) + g) 0 = packByte img x (8 * g) := by
      have h2 := packBits_getD img x g hx (by omega)
      rw [hgdiv] at h2
      exact h2
    rw [h1, packByte_testBit img x (8 * g) i hi]
    have hin : 8 * g + i < img.length := by omega
    simp [hin]

/-- Counterexample for C2's end-to-end scenario: dithering the 2×8 all-white
image in white/black mode yields the all-white quantized image, but the
encoder output on it is eight `0xC0` bytes and eight `0x3F` bytes on an 8×8
normalized image, not one `0xFF` byte and one `0x00` byte per each of 2
columns. -/
theorem packed_plane_scenario_cex :
    (toGrid 2 8 (floydSteinberg bwPalette (List.replicate 8 (List.replicate 2 255))) =
        List.replicate 8 (List.replicate 2 white)) ∧
      modulateBrw (List.replicate 8 (List.replicate 2 white)) =
        Except.ok ([192, 192, 192, 192, 192, 192, 192, 192],
          [63, 63, 63, 63, 63, 63, 63, 63], 8, 8) ∧
      ([192, 192, 192, 192, 192, 192, 192, 192] : List ℕ) ≠ [255, 255] ∧
      ([63, 63, 63, 63, 63, 63, 63, 63] : List ℕ) ≠ [0, 0] := by
  refine ⟨by decide, by decide, by decide, by decide⟩

/-- Witness for C2 on a concrete 8×1 all-255 plane. -/
theorem packed_plane_layout_witness :
    ((packBits (List.replicate 8 ([255] : List ℕ))).length =
        gridWidth (List.replicate 8 ([255] : List ℕ)) *
          ((List.replicate 8 ([255] : List ℕ)).length / 8)) ∧
      ((packBits (List.replicate 8 ([255] : List ℕ))).getD
            (0 * ((List.replicate 8 ([255] : List ℕ)).length / 8) + 0) 0).testBit (7 - 0) =
        decide (pixelAt (List.replicate 8 ([255] : List ℕ)) 0 (8 * 0 + 0) 0 = 255) :=
  ⟨(packed_plane_layout (List.replicate 8 [255]) (by decide)).1,
    (packed_plane_layout (List.replicate 8 [255]) (by decide)).2.1 0 0 0
      (by decide) (by decide) (by decide)⟩

/-! ## Claim C3 -/

/-- C3.  For a pixel of a quantized image that is white, black or red, the
primary ("bw") plane value is 255 (bit 1) exactly when the pixel is white,
and the secondary ("rw") plane value is 255 exactly when the pixel is black,
0 exactly when the pixel is white or red. -/
theorem plane_bits_of_palette_pixel (c : Color)
    (hc : c = white ∨ c = black ∨ c = red) :
    (bwBinVal c = 255 ↔ c = white) ∧
      (bwBinVal c = 0 ↔ c ≠ white) ∧
      (rwBinVal c = 255 ↔ c = black) ∧
      (rwBinVal c = 0 ↔ (c = white ∨ c = red)) := by
  rcases hc with rfl | rfl | rfl <;> refine ⟨?_, ?_, ?_, ?_⟩ <;> decide

/-- Witness for C3 at the black pixel. -/
theorem plane_bits_of_palette_pixel_witness :
    (bwBinVal black = 255 ↔ black = white) ∧
      (bwBinVal black = 0 ↔ black ≠ white) ∧
      (rwBinVal black = 255 ↔ black = black) ∧
      (rwBinVal black = 0 ↔ (black = white ∨ black = red)) :=
  plane_bits_of_palette_pixel black (Or.inr (Or.inl rfl))

/-! ## Claim C1: the argmin specification -/

theorem argminList_lt_length : ∀ l : List ℚ, l ≠ [] → argminList l < l.length := by
  intro l
  induction l with
  | nil => intro hc; exact absurd rfl hc
  | cons d tail ih =>
      intro _
      cases tail with
      | nil => simp [argminList]
      | cons e rest =>
          simp only [argminList]
          split_ifs with hle
          · simp
          · have hlt := ih (by simp)
            simp only [List.length_cons] at hlt ⊢
            omega

theorem argminList_le : ∀ (l : List ℚ) (j : ℕ), j < l.length →
    l.getD (argminList l) 0 ≤ l.getD j 0 := by
  intro l
  induction l with
  | nil => intro j hj; simp at hj
  | cons d tail ih =>
      intro j hj
      cases tail with
      | nil =>
          have hj0 : j = 0 := by simpa using hj
          subst hj0
          simp [argminList]
      | cons e rest =>
          simp only [argminList]
          split_ifs with hle
          · cases j with
            | zero => simp
            | succ k =>
                have hk : k < (e :: rest).length := by
                  simpa using Nat.lt_of_succ_lt_succ hj
                calc (d :: e :: rest).getD 0 0 = d := rfl
                  _ ≤ (e :: rest).getD (argminList (e :: rest)) 0 := hle
                  _ ≤ (e :: rest).getD k 0 := ih k hk
                  _ = (d :: e :: rest).getD (k + 1) 0 := rfl
          · push_neg at hle
            cases j with
            | zero => exact le_of_lt hle
            | succ k =>
                have hk : k < (e :: rest).length := by
                  simpa using Nat.lt_of_succ_lt_succ hj
                exact ih k hk

theorem argminList_first : ∀ (l : List ℚ) (j : ℕ), j < argminList l →
    l.getD (argminList l) 0 < l.getD j 0 := by
  intro l
  induction l with
  | nil => intro j hj; simp [argminList] at hj
  | cons d tail ih =>
      intro j hj
      cases tail with
      | nil => simp [argminList] at hj
      | cons e rest =>
          simp only [argminList] at hj ⊢
          split_ifs at hj ⊢ with hle
          · exact absurd hj (Nat.not_lt_zero j)
          · push_neg at hle
            cases j with
            | zero => exact hle
            | succ k => exact ih k (Nat.lt_of_succ_lt_succ hj)

theorem nearestIdx_lt (gp : List ℤ) (v : ℚ) (h : gp ≠ []) :
    nearestIdx gp v < gp.length := by
  have hne : (gp.map (fun g => lumDist g v)) ≠ [] := by
    simpa using h
  have h2 := argminList_lt_length _ hne
  rwa [List.length_map] at h2

theorem getD_map_lumDist (gp : List ℤ) (v : ℚ) (j : ℕ) (hj : j < gp.length) :
    (gp.map (fun g => lumDist g v)).getD j 0 = lumDist (gp.getD j 0) v := by
  rw [List.getD_eq_getElem?_getD, List.getElem?_map, List.getElem?_eq_getElem hj]
  conv_rhs => rw [List.getD_eq_getElem?_getD, List.getElem?_eq_getElem hj]
  rfl

/-- `np.argmin` satisfies the claim's selection rule: in range, minimal
distance, strictly better than every earlier index. -/
theorem nearestIdx_isNearest (gp : List ℤ) (v : ℚ) (h : gp ≠ []) :
    IsNearest gp v (nearestIdx gp v) := by
  have hn := nearestIdx_lt gp v h
  refine ⟨hn, ?_, ?_⟩
  · intro j hj
    have hle := argminList_le (gp.map (fun g => lumDist g v)) j
      (by rwa [List.length_map])
    rw [← getD_map_lumDist _ _ _ hn, ← getD_map_lumDist _ _ _ hj]
    exact hle
  · intro j hj
    have hj2 : j < gp.length := lt_trans hj hn
    have hlt := argminList_first (gp.map (fun g => lumDist g v)) j hj
    rw [← getD_map_lumDist _ _ _ hn, ← getD_map_lumDist _ _ _ hj2]
    exact hlt

/-- The claim's selection rule determines the index: any index satisfying it
is `np.argmin`'s. -/
theorem isNearest_unique (gp : List ℤ) (v : ℚ) (i : ℕ) (h : gp ≠ [])
    (hi : IsNearest gp v i) : i = nearestIdx gp v := by
  obtain ⟨hilt, hile, hifirst⟩ := hi
  obtain ⟨hnlt, hnle, hnfirst⟩ := nearestIdx_isNearest gp v h
  rcases Nat.lt_trichotomy i (nearestIdx gp v) with hlt | heq | hgt
  · exact absurd (hnfirst i hlt) (not_lt.mpr (hile _ hnlt))
  · exact heq
  · exact absurd (hifirst _ hgt) (not_lt.mpr (hnle _ hilt))

/-! ## Claim C1: the traversal -/

theorem fsProcessPixel_out_self (pal : List Color) (gp : List ℤ) (w h : ℕ)
    (st : FSState) (x y : ℕ) :
    (fsProcessPixel pal gp w h st (x, y)).out x y =
      pal.getD (nearestIdx gp (st.buf x y)) ⟨0, 0, 0⟩ := by
  simp [fsProcessPixel]

theorem fsProcessPixel_out_cases (pal : List Color) (gp : List ℤ) (w h : ℕ)
    (st : FSState) (p : ℕ × ℕ) (a b : ℕ) :
    (fsProcessPixel pal gp w h st p).out a b =
        pal.getD (nearestIdx gp (st.buf p.1 p.2)) ⟨0, 0, 0⟩ ∨
      (fsProcessPixel pal gp w h st p).out a b = st.out a b := by
  simp only [fsProcessPixel]
  by_cases hab : a = p.1 ∧ b = p.2
  · left
    simp [hab]
  · right
    simp [hab]

theorem getD_mem_of_lt (l : List Color) (i : ℕ) (d : Color) (h : i < l.length) :
    l.getD i d ∈ l := by
  rw [List.getD_eq_getElem?_getD, List.getElem?_eq_getElem h]
  exact List.getElem_mem h

theorem fsFold_preserve (pal : List Color) (gp : List ℤ) (w h : ℕ)
    (hlen : gp.length = pal.length) (hgp : gp ≠ []) :
    ∀ (L : List (ℕ × ℕ)) (st : FSState) (a b : ℕ), st.out a b ∈ pal →
      ((L.foldl (fsProcessPixel pal gp w h) st).out a b) ∈ pal := by
  intro L
  induction L with
  | nil => intro st a b hmem; exact hmem
  | cons p rest ih =>
      intro st a b hmem
      apply ih
      rcases fsProcessPixel_out_cases pal gp w h st p a b with hset | hkeep
      · rw [hset]
        exact getD_mem_of_lt pal _ _ (hlen ▸ nearestIdx_lt gp _ hgp)
      · rw [hkeep]
        exact hmem

theorem fsFold_visit (pal : List Color) (gp : List ℤ) (w h : ℕ)
    (hlen : gp.length = pal.length) (hgp : gp ≠ []) :
    ∀ (L : List (ℕ × ℕ)) (st : FSState) (a b : ℕ), (a, b) ∈ L →
      ((L.foldl (fsProcessPixel pal gp w h) st).out a b) ∈ pal := by
  intro L
  induction L with
  | nil => intro st a b hmem; simp at hmem
  | cons p rest ih =>
      intro st a b hmem
      rcases List.mem_cons.mp hmem with heq | hrest
      · apply fsFold_preserve pal gp w h hlen hgp rest
        rw [← heq, fsProcessPixel_out_self]
        exact getD_mem_of_lt pal _ _ (hlen ▸ nearestIdx_lt gp _ hgp)
      · exact ih _ a b hrest

theorem mem_pixelSeq (w h x y : ℕ) : (x, y) ∈ pixelSeq w h ↔ (x < w ∧ y < h) := by
  constructor
  · intro hm
    obtain ⟨yrow, hyrow, hx2⟩ := List.mem_flatMap.mp hm
    obtain ⟨xcol, hxcol, heq⟩ := List.mem_map.mp hx2
    injection heq with hxe hye
    subst hxe
    subst hye
    exact ⟨List.mem_range.mp hxcol, List.mem_range.mp hyrow⟩
  · rintro ⟨hx, hy⟩
    exact List.mem_flatMap.mpr
      ⟨y, List.mem_range.mpr hy, List.mem_map.mpr ⟨x, List.mem_range.mpr hx, rfl⟩⟩

/-- C1 (amended).  For a non-empty palette: at each pixel the generic
quantizer emits the full color of the palette entry whose `int()`-truncated
luminance (`gray_palette`, computed once from the palette) has the smallest
absolute difference to the pixel's current error-adjusted value, ties broken
by lowest palette index (first conjunct, through the characterizing
predicate `IsNearest`); consequently every output pixel inside the image is
exactly equal to some palette entry's color (second conjunct). -/
theorem quantizer_selection_and_palette_membership (pal : List Color)
    (hpal : pal ≠ []) :
    (∀ (w h : ℕ) (st : FSState) (x y i : ℕ),
        IsNearest (grayPalette pal) (st.buf x y) i →
        (fsProcessPixel pal (grayPalette pal) w h st (x, y)).out x y =
          pal.getD i ⟨0, 0, 0⟩) ∧
      (∀ (img : List (List ℕ)) (x y : ℕ), x < gridWidth img → y < img.length →
        floydSteinberg pal img x y ∈ pal) := by
  have hgp : grayPalette pal ≠ [] := by
    intro hc
    exact hpal (List.map_eq_nil_iff.mp hc)
  have hlen : (grayPalette pal).length = pal.length := List.length_map _ _
  constructor
  · intro w h st x y i hi
    rw [fsProcessPixel_out_self, ← isNearest_unique _ _ i hgp hi]
  · intro img x y hx hy
    have hmem : (x, y) ∈ pixelSeq (gridWidth img) img.length :=
      (mem_pixelSeq _ _ x y).mpr ⟨hx, hy⟩
    exact fsFold_visit pal (grayPalette pal) _ _ hlen hgp _ _ x y hmem

/-- Witness for C1: with the white/black palette, a pixel value 128 selects
white (index 0, distance 127 against 128), and the single pixel of `[[128]]`
is dithered to a palette color. -/
theorem quantizer_selection_witness :
    (fsProcessPixel bwPalette (grayPalette bwPalette) 1 1
        ⟨fun _ _ => 128, fun _ _ => ⟨0, 0, 0⟩⟩ (0, 0)).out 0 0 =
      bwPalette.getD 0 ⟨0, 0, 0⟩ ∧
    floydSteinberg bwPalette [[128]] 0 0 ∈ bwPalette :=
  ⟨(quantizer_selection_and_palette_membership bwPalette (by decide)).1 1 1
      ⟨fun _ _ => 128, fun _ _ => ⟨0, 0, 0⟩⟩ 0 0 0 (by decide),
    (quantizer_selection_and_palette_membership bwPalette (by decide)).2 [[128]] 0 0
      (by decide) (by decide)⟩

/-- Counterexample for C1 as stated: with the palette
`[(0,0,3), (0,0,0)]` (BGR) both entries truncate to `gray_palette = [0, 0]`,
so on the one-pixel image `[[0]]` the code emits entry 0, the color
`(0,0,3)` — although entry 1's exact spec luminance `0` is strictly closer
to the pixel value `0` than entry 0's `0.897`, so the claim (which selects
by the untruncated luminance `0.299R + 0.587G + 0.114B`) requires the
distinct color `(0,0,0)`. -/
theorem quantizer_exact_luminance_cex :
    floydSteinberg [⟨0, 0, 3⟩, ⟨0, 0, 0⟩] [[0]] 0 0 = ⟨0, 0, 3⟩ ∧
      |lumExact ⟨0, 0, 0⟩ - 0| < |lumExact ⟨0, 0, 3⟩ - 0| ∧
      (⟨0, 0, 3⟩ : Color) ≠ ⟨0, 0, 0⟩ := by
  have h3 : lumExact ⟨0, 0, 3⟩ = Rat.divInt 897 1000 := by decide
  have h0 : lumExact ⟨0, 0, 0⟩ = 0 := by decide
  refine ⟨by decide, ?_, by decide⟩
  rw [h3, h0, Rat.divInt_eq_div]
  norm_num

/-! ## Claim C8 -/

/-- When every chunk event in range succeeds, the chunk loop sends the whole
plane, one write per chunk, and reports success. -/
theorem sendChunksGo_all_ok (env : SerialEnv) :
    ∀ (chs : List (List ℕ)) (c : ℕ),
      (∀ j, j < chs.length → env.writeRes (c + j) = 16 ∧ env.chunkAck (c + j) = true) →
      sendChunksGo env chs c = (true, chs, c + chs.length) := by
  intro chs
  induction chs with
  | nil => intro c _; simp [sendChunksGo]
  | cons ch rest ih =>
      intro c hok
      have h0 := hok 0 (Nat.succ_pos _)
      simp only [Nat.add_zero] at h0
      have hrest : ∀ j, j < rest.length →
          env.writeRes (c + 1 + j) = 16 ∧ env.chunkAck (c + 1 + j) = true := by
        intro j hj
        have hs := hok (j + 1) (Nat.succ_lt_succ hj)
        rwa [show c + (j + 1) = c + 1 + j by omega] at hs
      simp only [sendChunksGo]
      rw [if_neg (by simp [h0.1]), if_neg (by simp [h0.2]), ih (c + 1) hrest]
      simp only [Prod.mk.injEq, List.length_cons]
      refine ⟨by trivial, by trivial, by omega⟩

/-- When the first failing chunk event is number `c + k`, the chunk loop
writes exactly the chunks up to and including the `k`-th — each once — and
reports failure without touching any later chunk. -/
theorem sendChunksGo_fails_at (env : SerialEnv) :
    ∀ (chs : List (List ℕ)) (c k : ℕ), k < chs.length →
      (∀ j, j < k → env.writeRes (c + j) = 16 ∧ env.chunkAck (c + j) = true) →
      (env.writeRes (c + k) ≠ 16 ∨ env.chunkAck (c + k) = false) →
      sendChunksGo env chs c = (false, chs.take (k + 1), c + k + 1) := by
  intro chs
  induction chs with
  | nil => intro c k hk; simp at hk
  | cons ch rest ih =>
      intro c k hk hpre hfail
      cases k with
      | zero =>
          simp only [Nat.add_zero] at hfail
          simp only [sendChunksGo]
          rcases hfail with hw | ha
          · rw [if_pos hw]
            simp
          · by_cases hw : env.writeRes c ≠ 16
            · rw [if_pos hw]
              simp
            · rw [if_neg hw, if_pos ha]
              simp
      | succ kp =>
          have h0 := hpre 0 (Nat.succ_pos _)
          simp only [Nat.add_zero] at h0
          have hkp : kp < rest.length := by
            simpa using Nat.lt_of_succ_lt_succ hk
          have hpre2 : ∀ j, j < kp →
              env.writeRes (c + 1 + j) = 16 ∧ env.chunkAck (c + 1 + j) = true := by
            intro j hj
            have hs := hpre (j + 1) (Nat.succ_lt_succ hj)
            rwa [show c + (j + 1) = c + 1 + j by omega] at hs
          have hfail2 : env.writeRes (c + 1 + kp) ≠ 16 ∨
              env.chunkAck (c + 1 + kp) = false := by
            rwa [show c + 1 + kp = c + (kp + 1) by omega]
          simp only [sendChunksGo]
          rw [if_neg (by simp [h0.1]), if_neg (by simp [h0.2]),
            ih (c + 1) kp hkp hpre2 hfail2]
          simp only [Prod.mk.injEq, List.take_succ_cons]
          refine ⟨by trivial, by trivial, by omega⟩

/-- C8.  Once the handshake or any chunk's checksum acknowledgment fails
(or a chunk write is short), the session writes no further chunk bytes: a
failed handshake leaves only the marker on the wire (first conjunct); a
first failure at chunk `k` of the primary plane puts exactly the marker and
chunks 0..k on the wire — the failed chunk once, none of the remaining
chunks, nothing of the secondary plane — and the send reports failure
(second conjunct); a first failure at chunk `k` of the secondary plane puts
exactly the marker, the whole primary plane and secondary chunks 0..k on the
wire and reports failure (third conjunct).  No retransmission appears in any
trace. -/
theorem transfer_aborts_after_failure (env : SerialEnv) (bw rw : List ℕ) (k : ℕ) :
    (env.handshakeAck = false → sendImgData env true bw rw = (false, [begMarker])) ∧
      (env.handshakeAck = true → bw.length % 16 = 0 → k < (chunks16 bw).length →
        (∀ j, j < k → env.writeRes j = 16 ∧ env.chunkAck j = true) →
        (env.writeRes k ≠ 16 ∨ env.chunkAck k = false) →
        sendImgData env true bw rw = (false, begMarker :: (chunks16 bw).take (k + 1))) ∧
      (env.handshakeAck = true → bw.length % 16 = 0 → rw.length % 16 = 0 →
        (∀ j, j < (chunks16 bw).length →
          env.writeRes j = 16 ∧ env.chunkAck j = true) →
        k < (chunks16 rw).length →
        (∀ j, j < k → env.writeRes ((chunks16 bw).length + j) = 16 ∧
          env.chunkAck ((chunks16 bw).length + j) = true) →
        (env.writeRes ((chunks16 bw).length + k) ≠ 16 ∨
          env.chunkAck ((chunks16 bw).length + k) = false) →
        sendImgData env true bw rw =
          (false, begMarker :: (chunks16 bw ++ (chunks16 rw).take (k + 1)))) := by
  refine ⟨?_, ?_, ?_⟩
  · intro hh
    simp [sendImgData, hh]
  · intro hh h16 hk hpre hfail
    have hsend : sendDataWithChecksum env 0 bw =
        (false, (chunks16 bw).take (k + 1), k + 1) := by
      rw [sendDataWithChecksum, if_neg (by omega)]
      have hgo := sendChunksGo_fails_at env (chunks16 bw) 0 k hk
        (by intro j hj; simpa using hpre j hj) (by simpa using hfail)
      simpa using hgo
    simp [sendImgData, hh, hsend]
  · intro hh h16b h16r hok1 hk hpre hfail
    have hsend1 : sendDataWithChecksum env 0 bw =
        (true, chunks16 bw, (chunks16 bw).length) := by
      rw [sendDataWithChecksum, if_neg (by omega)]
      have hgo := sendChunksGo_all_ok env (chunks16 bw) 0
        (by intro j hj; simpa using hok1 j hj)
      simpa using hgo
    have hsend2 : sendDataWithChecksum env ((chunks16 bw).length) rw =
        (false, (chunks16 rw).take (k + 1), (chunks16 bw).length + k + 1) := by
      rw [sendDataWithChecksum, if_neg (by omega)]
      exact sendChunksGo_fails_at env (chunks16 rw) _ k hk hpre hfail
    simp [sendImgData, hh, hsend1, hsend2]

/-- Witness for C8: with a receiver that acknowledges only the first chunk,
a 32-byte primary plane stops after its second chunk — both chunks written
once, the secondary plane untouched, result `False`. -/
theorem transfer_aborts_after_failure_witness :
    sendImgData ⟨true, fun _ => 16, fun j => decide (j = 0)⟩ true
        (List.replicate 32 0) [7] =
      (false, begMarker :: (chunks16 (List.replicate 32 0)).take (1 + 1)) :=
  (transfer_aborts_after_failure ⟨true, fun _ => 16, fun j => decide (j = 0)⟩
      (List.replicate 32 0) [7] 1).2.1 (by decide) (by decide) (by decide)
    (by decide) (by decide)

end EPD
